import Mathlib

/-!
Verification of the background task execution core of the repository
(`async_processor.py`): task submission, worker scheduling, concurrency
limiting, status tracking, result retrieval, retry/backoff and garbage
collection of finished tasks.

Python dicts (`self.processing`, `self.results`) are embedded as
association lists with a no-duplicate-keys invariant; `time.time()`
timestamps and retry delays are embedded as rationals; the fallible
handlers (`_process_tts_task`, `_process_video_task`) are embedded as
parameters returning `Except String String` (error message or file path).
-/

namespace AsyncProc

/-- `time.time()` values and backoff delays (Python floats), modelled exactly. -/
abbrev Time := ℚ

/-! ### Association-list primitives (Python `dict` operations) -/

/-- Dict lookup: first binding of key `k`. -/
def alookup (k : String) : List (String × β) → Option β
  | [] => none
  | (k', v) :: rest => if k' = k then some v else alookup k rest

/-- Dict assignment `d[k] = v`: replace the binding of `k` in place, or append. -/
def upsert (k : String) (v : β) : List (String × β) → List (String × β)
  | [] => [(k, v)]
  | (k', v') :: rest => if k' = k then (k, v) :: rest else (k', v') :: upsert k v rest

/-- Dict mutation of an existing entry's fields (`d[k]['field'] = ...`). -/
def amodify (k : String) (f : β → β) : List (String × β) → List (String × β)
  | [] => []
  | (k', v') :: rest =>
      if k' = k then (k', f v') :: amodify k f rest else (k', v') :: amodify k f rest

/-- Keys of an association list. -/
def akeys (l : List (String × β)) : List String := l.map Prod.fst

/-! ### Data model (`async_processor.py`) -/

/-- The `'status'` field of a `self.processing` entry: `'processing'`,
`'completed'` or `'failed'`. (`submit_task` creates no entry, so there is
no queued status value in the store.) -/
inductive TStatus
  | processing
  | completed
  | failed
deriving DecidableEq, Repr

/-- One value of the `self.processing` dict, as written by `_process_task`:
`{'status': ..., 'started_at': ..., 'task_type': ...}` plus the
`'completed_at'` / `'error'` fields added on completion or failure. -/
structure Entry where
  status : TStatus
  startedAt : Time
  taskType : String
  completedAt : Option Time
  error : Option String
deriving DecidableEq, Repr

/-- One value of the `self.results` dict:
`{'success': True, 'result': r}` or `{'success': False, 'error': e}`. -/
inductive TaskResult
  | success (value : String)
  | failure (error : String)
deriving DecidableEq, Repr

/-- A task descriptor as placed on `self.task_queue` by `submit_task`:
`{'task_id': ..., 'type': ..., **kwargs}`. -/
structure Task where
  taskId : String
  type : String
  payload : List (String × String)
deriving DecidableEq, Repr

/-- `task_id = f"{task_type}_{int(time.time() * 1000)}_{id(kwargs)}"`:
the id is built only from the task type, the millisecond clock reading and
the memory address of the `kwargs` dict. -/
def mkTaskId (taskType : String) (timeMs : Int) (kwargsAddr : Nat) : String :=
  taskType ++ "_" ++ toString timeMs ++ "_" ++ toString kwargsAddr

/-- One invocation of `submit_task`, with the ambient quantities the id
generator reads: the millisecond clock and the address of the `kwargs`
dict (`id(kwargs)`), which CPython reuses after the dict is freed. -/
structure SubmitCall where
  taskType : String
  payload : List (String × String)
  timeMs : Int
  kwargsAddr : Nat
deriving DecidableEq, Repr

/-- The id `submit_task` returns for a given invocation. -/
def SubmitCall.taskId (c : SubmitCall) : String :=
  mkTaskId c.taskType c.timeMs c.kwargsAddr

/-! ### Processor state (`AsyncProcessor.__init__`) -/

/-- The mutable state of an `AsyncProcessor`: `self.task_queue` (FIFO,
head is next to be dequeued), `self.processing`, `self.results`, and the
task the single worker thread is currently executing inside
`_process_task` (`none` when the worker is between tasks). -/
structure PState where
  taskQueue : List Task
  processing : List (String × Entry)
  results : List (String × TaskResult)
  current : Option Task
deriving DecidableEq, Repr

/-- A freshly constructed processor: empty queue, empty dicts. -/
def initState : PState := ⟨[], [], [], none⟩

/-- `self.max_concurrent_tasks = 2`. -/
def maxConcurrentTasks : Nat := 2

/-! ### Operations (`AsyncProcessor` methods) -/

/-- `_get_active_count`: number of `self.processing` entries whose
status is `'processing'`. -/
def getActiveCount (s : PState) : Nat :=
  s.processing.countP (fun p => decide (p.2.status = TStatus.processing))

/-- The return value of `get_task_status`: `{'status': 'not_found'}`, or a
copy of the processing entry together with the result when one exists. -/
inductive StatusView where
  | notFound
  | found (entry : Entry) (result : Option TaskResult)
deriving DecidableEq, Repr

/-- `get_task_status`: `not_found` when the id has no `self.processing`
entry; otherwise the entry, with the `self.results` value attached when
present. -/
def getTaskStatus (s : PState) (taskId : String) : StatusView :=
  match alookup taskId s.processing with
  | none => StatusView.notFound
  | some e => StatusView.found e (alookup taskId s.results)

/-- The reaping condition of `_cleanup_completed_tasks`:
`status['status'] == 'completed' and current_time - status['completed_at'] > 300`.
(A completed entry always carries `completed_at`, set together with the
status in `_process_task`; `getD 0` is the total reading of that access.) -/
def expiredCompleted (now : Time) (e : Entry) : Bool :=
  decide (e.status = TStatus.completed ∧ 300 < now - e.completedAt.getD 0)

/-- `_cleanup_completed_tasks`: remove every completed entry older than
300 seconds from `self.processing`, and those same ids from
`self.results`. -/
def cleanupCompletedTasks (s : PState) (now : Time) : PState :=
  { s with
    processing := s.processing.filter (fun p => !(expiredCompleted now p.2)),
    results := s.results.filter (fun p =>
      match alookup p.1 s.processing with
      | some e => !(expiredCompleted now e)
      | none => true) }

/-- `submit_task`: build the id, enqueue the task descriptor, return the
id. No `self.processing` or `self.results` entry is created. -/
def submitTask (s : PState) (c : SubmitCall) : PState × String :=
  ({ s with taskQueue := s.taskQueue ++ [⟨c.taskId, c.taskType, c.payload⟩] }, c.taskId)

/-- Handler dispatch inside `_process_task`: `'tts'` and `'video'` go to
their handlers, any other type raises `ValueError(f"Unknown task type: ...")`. -/
def dispatch (tts video : Task → Except String String) (task : Task) :
    Except String String :=
  if task.type = "tts" then tts task
  else if task.type = "video" then video task
  else Except.error ("Unknown task type: " ++ task.type)

/-- First half of `_process_task`: record the entry
`{'status': 'processing', 'started_at': now, 'task_type': task['type']}`
and enter the handler (the worker thread is now busy on `task`). -/
def beginTask (s : PState) (task : Task) (now : Time) : PState :=
  { s with
    processing :=
      upsert task.taskId ⟨TStatus.processing, now, task.type, none, none⟩ s.processing,
    current := some task }

/-- Second half of `_process_task`: on handler success store
`{'success': True, 'result': r}` and mark the entry
`'completed'`/`completed_at`; on handler failure store
`{'success': False, 'error': msg}` and mark it `'failed'`/`error`.
Either way the worker thread becomes free again. -/
def finishTask (s : PState) (taskId : String) (outcome : Except String String)
    (now : Time) : PState :=
  match outcome with
  | Except.ok r =>
      { s with
        results := upsert taskId (TaskResult.success r) s.results,
        processing := amodify taskId
          (fun e => { e with status := TStatus.completed, completedAt := some now })
          s.processing,
        current := none }
  | Except.error msg =>
      { s with
        results := upsert taskId (TaskResult.failure msg) s.results,
        processing := amodify taskId
          (fun e => { e with status := TStatus.failed, error := some msg })
          s.processing,
        current := none }

/-- The whole of `_process_task` on a task already pulled from the queue:
mark processing, dispatch to the handler, record the outcome. -/
def processTask (tts video : Task → Except String String) (s : PState)
    (task : Task) (startNow finNow : Time) : PState :=
  finishTask (beginTask s task startNow) task.taskId (dispatch tts video task) finNow

/-! ### The transition system

One step of the system: a foreground caller submits a task, or the single
worker thread (sequential: `_worker` calls `_cleanup_completed_tasks`,
then pulls a task only when under the concurrency ceiling, and
`_process_task` runs the handler to completion before the loop continues)
pulls-and-begins a task, finishes the task it is on, or runs a cleanup
sweep. The freshness hypotheses on `submit` encode the id-uniqueness
assumption of the design; its violation by `mkTaskId` is treated
separately (see `submit_task_id_collision`). -/
inductive Step (tts video : Task → Except String String) : PState → PState → Prop where
  | submit (s : PState) (c : SubmitCall)
      (freshQ : ∀ t ∈ s.taskQueue, t.taskId ≠ c.taskId)
      (freshP : alookup c.taskId s.processing = none)
      (freshR : alookup c.taskId s.results = none)
      (freshC : ∀ t, s.current = some t → t.taskId ≠ c.taskId) :
      Step tts video s (submitTask s c).1
  | begin (s : PState) (task : Task) (rest : List Task) (now : Time)
      (hq : s.taskQueue = task :: rest)
      (hidle : s.current = none)
      (hcap : getActiveCount s < maxConcurrentTasks) :
      Step tts video s (beginTask { s with taskQueue := rest } task now)
  | finish (s : PState) (task : Task) (now : Time)
      (hcur : s.current = some task) :
      Step tts video s (finishTask s task.taskId (dispatch tts video task) now)
  | cleanup (s : PState) (now : Time)
      (hidle : s.current = none) :
      Step tts video s (cleanupCompletedTasks s now)

/-- States reachable from a freshly constructed processor. -/
inductive Reachable (tts video : Task → Except String String) : PState → Prop where
  | init : Reachable tts video initState
  | step {s s' : PState} : Reachable tts video s → Step tts video s s' →
      Reachable tts video s'

/-! ### Task lifecycle phases (spec §3) -/

/-- The lifecycle phase of an id: in the submission queue (queued), or in
the store with its recorded status. `none` when the processor does not
track the id at all. -/
inductive Phase where
  | queued
  | processing
  | completed
  | failed
deriving DecidableEq, Repr

/-- Phase of an id in a state: the store entry's status when one exists,
else queued when the id waits in the submission queue. -/
def phaseOf (s : PState) (tid : String) : Option Phase :=
  match alookup tid s.processing with
  | some e =>
      some (match e.status with
            | TStatus.processing => Phase.processing
            | TStatus.completed => Phase.completed
            | TStatus.failed => Phase.failed)
  | none =>
      if tid ∈ s.taskQueue.map Task.taskId then some Phase.queued else none

/-- Position of a phase along `Queued → Processing → {Completed|Failed}`. -/
def phaseVal : Phase → Nat
  | Phase.queued => 0
  | Phase.processing => 1
  | Phase.completed => 2
  | Phase.failed => 2

/-! ### `retry_with_backoff`

The wrapped operation is embedded as the sequence of outcomes of its
successive invocations (`op k` = outcome of the `k`-th call, 0-indexed).
The loop `for attempt in range(max_retries)` is recursion on the number of
remaining iterations; the recorded triple is (what the wrapper
returns/raises — `none` for the implicit `None` when `max_retries = 0`,
how many times the operation was invoked, the list of sleep delays). -/

/-- The loop body of the wrapper: at loop counter `attempt` with
`remaining` iterations left and current `delay`, try `op attempt`; on
success return it; on failure at the last iteration
(`attempt == max_retries - 1`) re-raise it, otherwise sleep `delay`,
double it, and continue. -/
def retryGo (op : Nat → Except E A) :
    Nat → Nat → ℚ → Option (Except E A) × Nat × List ℚ
  | _, 0, _ => (none, 0, [])
  | attempt, remaining + 1, delay =>
    match op attempt with
    | Except.ok a => (some (Except.ok a), 1, [])
    | Except.error e =>
      match remaining with
      | 0 => (some (Except.error e), 1, [])
      | _ + 1 =>
        let rest := retryGo op (attempt + 1) remaining (2 * delay)
        (rest.1, rest.2.1 + 1, delay :: rest.2.2)

/-- `retry_with_backoff(func, max_retries, initial_delay)`: run the retry
loop from attempt 0 with the initial delay. -/
def retryWithBackoff (op : Nat → Except E A) (maxRetries : Nat)
    (initialDelay : ℚ) : Option (Except E A) × Nat × List ℚ :=
  retryGo op 0 maxRetries initialDelay

/-! ### The state invariant

Well-formedness of a reachable processor state, under the design's
id-uniqueness assumption: queued ids are distinct and untracked by the
store, store/result keys are duplicate-free, the only entry that can be
in `'processing'` status is the one the single worker thread is currently
executing, and results exist exactly for terminal entries. -/

/-- Invariant of reachable states. -/
structure Inv (s : PState) : Prop where
  queueNodup : (s.taskQueue.map Task.taskId).Nodup
  queueProc : ∀ t ∈ s.taskQueue, alookup t.taskId s.processing = none
  queueRes : ∀ t ∈ s.taskQueue, alookup t.taskId s.results = none
  queueCur : ∀ t ∈ s.taskQueue, ∀ c, s.current = some c → c.taskId ≠ t.taskId
  procNodup : (akeys s.processing).Nodup
  resNodup : (akeys s.results).Nodup
  activeCur : ∀ p ∈ s.processing, p.2.status = TStatus.processing →
      ∃ c, s.current = some c ∧ c.taskId = p.1
  curActive : ∀ c, s.current = some c →
      ∃ e, alookup c.taskId s.processing = some e ∧ e.status = TStatus.processing
  resultIff : ∀ p ∈ s.processing,
      (p.2.status = TStatus.completed ↔
        ∃ v, alookup p.1 s.results = some (TaskResult.success v)) ∧
      (p.2.status = TStatus.failed ↔
        ∃ msg, alookup p.1 s.results = some (TaskResult.failure msg))

/-! ### Concrete handlers and states for scenarios -/

/-- A speech-synthesis handler that succeeds with a fixed path. -/
def ttsOk : Task → Except String String := fun _ => Except.ok "audio.mp3"

/-- A video-rendering handler that succeeds with a fixed path. -/
def videoOk : Task → Except String String := fun _ => Except.ok "video.mp4"

/-- A speech-synthesis handler that always fails. -/
def ttsErr : Task → Except String String := fun _ => Except.error "engine down"

/-- A state holding one task that failed at time 2 (handler error),
produced by the processor itself from a fresh state. -/
def failedTaskState : PState :=
  processTask ttsErr videoOk initState ⟨"tts_1000_7", "tts", [("text", "hello")]⟩ 1 2

/-- One example submission. -/
def subA : SubmitCall := ⟨"tts", [("text", "hi")], 1000, 7⟩

/-- The state after submitting `subA` to a fresh processor. -/
def sQueuedA : PState := (submitTask initState subA).1

/-- The state at the moment the worker has pulled `subA`'s task and is
inside its handler. -/
def sMid : PState :=
  beginTask { sQueuedA with taskQueue := [] } ⟨"tts_1000_7", "tts", [("text", "hi")]⟩ 1

end AsyncProc

namespace AsyncProc

/-! ### Association-list lemmas -/

theorem alookup_eq_none {β : Type} {l : List (String × β)} {k : String} :
    alookup k l = none ↔ k ∉ akeys l := by
  induction l with
  | nil => simp [alookup, akeys]
  | cons p rest ih =>
    obtain ⟨k', v⟩ := p
    simp only [alookup, akeys, List.map_cons, List.mem_cons]
    by_cases h : k' = k
    · subst h; simp
    · simp [h, Ne.symm h, akeys] at ih ⊢
      exact ih

theorem alookup_mem {β : Type} {l : List (String × β)} {k : String} {v : β}
    (h : alookup k l = some v) : (k, v) ∈ l := by
  induction l with
  | nil => simp [alookup] at h
  | cons p rest ih =>
    obtain ⟨k', v'⟩ := p
    simp only [alookup] at h
    by_cases hk : k' = k
    · subst hk
      rw [if_pos rfl] at h
      injection h with h
      subst h
      exact List.mem_cons_self _ _
    · rw [if_neg hk] at h
      exact List.mem_cons_of_mem _ (ih h)

theorem mem_alookup {β : Type} {l : List (String × β)} {k : String} {v : β}
    (nd : (akeys l).Nodup) (h : (k, v) ∈ l) : alookup k l = some v := by
  induction l with
  | nil => simp at h
  | cons p rest ih =>
    obtain ⟨k', v'⟩ := p
    simp only [akeys, List.map_cons, List.nodup_cons] at nd
    rcases List.mem_cons.mp h with h1 | h1
    · obtain ⟨rfl, rfl⟩ := Prod.mk.injEq .. ▸ h1
      simp [alookup]
    · have hk : k' ≠ k := by
        intro hkk
        subst hkk
        exact nd.1 (List.mem_map.mpr ⟨(k', v), h1, rfl⟩)
      simp only [alookup, if_neg hk]
      exact ih nd.2 h1

theorem alookup_upsert_self {β : Type} (l : List (String × β)) (k : String) (v : β) :
    alookup k (upsert k v l) = some v := by
  induction l with
  | nil => simp [upsert, alookup]
  | cons p rest ih =>
    obtain ⟨k', v'⟩ := p
    by_cases h : k' = k
    · subst h; simp [upsert, alookup]
    · simp [upsert, alookup, h, ih]

theorem alookup_upsert_ne {β : Type} (l : List (String × β)) {k k' : String} (v : β)
    (h : k' ≠ k) : alookup k' (upsert k v l) = alookup k' l := by
  induction l with
  | nil => simp [upsert, alookup, Ne.symm h]
  | cons p rest ih =>
    obtain ⟨k₀, v₀⟩ := p
    by_cases h0 : k₀ = k
    · subst h0
      simp [upsert, alookup, Ne.symm h]
    · simp only [upsert, if_neg h0, alookup]
      by_cases h1 : k₀ = k'
      · simp [h1]
      · simp [h1, ih]

theorem mem_upsert {β : Type} {l : List (String × β)} {k : String} {v : β}
    {p : String × β} (h : p ∈ upsert k v l) : p = (k, v) ∨ p ∈ l := by
  induction l with
  | nil => simp [upsert] at h; simp [h]
  | cons q rest ih =>
    obtain ⟨k₀, v₀⟩ := q
    by_cases h0 : k₀ = k
    · subst h0
      simp only [upsert, if_pos rfl] at h
      rcases List.mem_cons.mp h with h1 | h1
      · exact Or.inl h1
      · exact Or.inr (List.mem_cons_of_mem _ h1)
    · simp only [upsert, if_neg h0] at h
      rcases List.mem_cons.mp h with h1 | h1
      · exact Or.inr (h1 ▸ List.mem_cons_self _ _)
      · rcases ih h1 with h2 | h2
        · exact Or.inl h2
        · exact Or.inr (List.mem_cons_of_mem _ h2)

theorem akeys_upsert_of_none {β : Type} {l : List (String × β)} {k : String} (v : β)
    (h : alookup k l = none) : akeys (upsert k v l) = akeys l ++ [k] := by
  induction l with
  | nil => simp [upsert, akeys]
  | cons p rest ih =>
    obtain ⟨k₀, v₀⟩ := p
    simp only [alookup] at h
    by_cases h0 : k₀ = k
    · rw [if_pos h0] at h; cases h
    · rw [if_neg h0] at h
      have hrec := ih h
      simp only [akeys] at hrec
      simp [upsert, akeys, h0, hrec]

theorem akeys_amodify {β : Type} (k : String) (f : β → β) (l : List (String × β)) :
    akeys (amodify k f l) = akeys l := by
  induction l with
  | nil => simp [amodify]
  | cons p rest ih =>
    obtain ⟨k₀, v₀⟩ := p
    simp only [akeys] at ih
    by_cases h0 : k₀ = k
    · simp [amodify, h0, akeys, ih]
    · simp [amodify, h0, akeys, ih]

theorem alookup_amodify_self {β : Type} (k : String) (f : β → β) (l : List (String × β)) :
    alookup k (amodify k f l) = (alookup k l).map f := by
  induction l with
  | nil => simp [amodify, alookup]
  | cons p rest ih =>
    obtain ⟨k₀, v₀⟩ := p
    by_cases h0 : k₀ = k
    · subst h0; simp [amodify, alookup]
    · simp [amodify, alookup, h0, ih]

theorem alookup_amodify_ne {β : Type} {k k' : String} (f : β → β) (l : List (String × β))
    (h : k' ≠ k) : alookup k' (amodify k f l) = alookup k' l := by
  induction l with
  | nil => simp [amodify, alookup]
  | cons p rest ih =>
    obtain ⟨k₀, v₀⟩ := p
    by_cases h0 : k₀ = k
    · subst h0
      simp [amodify, alookup, Ne.symm h, ih]
    · simp only [amodify, if_neg h0, alookup]
      by_cases h1 : k₀ = k'
      · simp [h1]
      · simp [h1, ih]

theorem mem_amodify {β : Type} {l : List (String × β)} {k : String} {f : β → β}
    {p : String × β} (h : p ∈ amodify k f l) :
    (p.1 = k ∧ ∃ v, (k, v) ∈ l ∧ p.2 = f v) ∨ (p.1 ≠ k ∧ p ∈ l) := by
  induction l with
  | nil => simp [amodify] at h
  | cons q rest ih =>
    obtain ⟨k₀, v₀⟩ := q
    by_cases h0 : k₀ = k
    · subst h0
      simp only [amodify, if_pos rfl] at h
      rcases List.mem_cons.mp h with h1 | h1
      · subst h1
        exact Or.inl ⟨rfl, v₀, List.mem_cons_self _ _, rfl⟩
      · rcases ih h1 with ⟨h2, v, hv, hfv⟩ | ⟨h2, h3⟩
        · exact Or.inl ⟨h2, v, List.mem_cons_of_mem _ hv, hfv⟩
        · exact Or.inr ⟨h2, List.mem_cons_of_mem _ h3⟩
    · simp only [amodify, if_neg h0] at h
      rcases List.mem_cons.mp h with h1 | h1
      · subst h1
        exact Or.inr ⟨h0, List.mem_cons_self _ _⟩
      · rcases ih h1 with ⟨h2, v, hv, hfv⟩ | ⟨h2, h3⟩
        · exact Or.inl ⟨h2, v, List.mem_cons_of_mem _ hv, hfv⟩
        · exact Or.inr ⟨h2, List.mem_cons_of_mem _ h3⟩

theorem alookup_filter_pos {β : Type} {l : List (String × β)} {k : String} {v : β}
    {q : String × β → Bool} (h : alookup k l = some v) (hq : q (k, v) = true) :
    alookup k (l.filter q) = some v := by
  induction l with
  | nil => simp [alookup] at h
  | cons p rest ih =>
    obtain ⟨k₀, v₀⟩ := p
    simp only [alookup] at h
    by_cases h0 : k₀ = k
    · subst h0
      rw [if_pos rfl] at h
      injection h with h
      subst h
      simp [List.filter, hq, alookup]
    · rw [if_neg h0] at h
      by_cases hk : q (k₀, v₀) = true
      · simp [List.filter, hk, alookup, h0, ih h]
      · simp only [List.filter]
        rw [Bool.not_eq_true] at hk
        rw [hk]
        exact ih h

theorem alookup_filter_none {β : Type} {l : List (String × β)} {k : String}
    {q : String × β → Bool} (h : alookup k l = none) :
    alookup k (l.filter q) = none := by
  induction l with
  | nil => simp [alookup]
  | cons p rest ih =>
    obtain ⟨k₀, v₀⟩ := p
    simp only [alookup] at h
    by_cases h0 : k₀ = k
    · rw [if_pos h0] at h; cases h
    · rw [if_neg h0] at h
      by_cases hk : q (k₀, v₀) = true
      · simp [List.filter, hk, alookup, h0, ih h]
      · simp only [List.filter]
        rw [Bool.not_eq_true] at hk
        rw [hk]
        exact ih h

theorem alookup_filter_neg {β : Type} {l : List (String × β)} {k : String} {v : β}
    {q : String × β → Bool} (nd : (akeys l).Nodup) (h : alookup k l = some v)
    (hq : q (k, v) = false) : alookup k (l.filter q) = none := by
  induction l with
  | nil => simp [alookup] at h
  | cons p rest ih =>
    obtain ⟨k₀, v₀⟩ := p
    simp only [akeys, List.map_cons, List.nodup_cons] at nd
    simp only [alookup] at h
    by_cases h0 : k₀ = k
    · subst h0
      rw [if_pos rfl] at h
      injection h with h
      subst h
      simp only [List.filter, hq]
      apply alookup_filter_none
      exact alookup_eq_none.mpr nd.1
    · rw [if_neg h0] at h
      by_cases hk : q (k₀, v₀) = true
      · simp [List.filter, hk, alookup, h0, ih nd.2 h]
      · simp only [List.filter]
        rw [Bool.not_eq_true] at hk
        rw [hk]
        exact ih nd.2 h

/-! ### Counting and the active count -/

theorem countP_le_one_of_key {β : Type} (k : String) {l : List (String × β)}
    {q : String × β → Bool} (nd : (akeys l).Nodup)
    (h : ∀ p ∈ l, q p = true → p.1 = k) : l.countP q ≤ 1 := by
  induction l with
  | nil => simp
  | cons p rest ih =>
    simp only [akeys, List.map_cons, List.nodup_cons] at nd
    by_cases hq : q p = true
    · have hk := h p (List.mem_cons_self _ _) hq
      have hz : rest.countP q = 0 := by
        rw [List.countP_eq_zero]
        intro r hr hqr
        have hrk : r.1 = k := h r (List.mem_cons_of_mem _ hr) hqr
        exact nd.1 (by rw [hk]; exact List.mem_map.mpr ⟨r, hr, hrk⟩)
      rw [List.countP_cons_of_pos _ _ hq, hz]
    · rw [List.countP_cons_of_neg _ _ (by simpa using hq)]
      exact ih nd.2 (fun r hr hqr => h r (List.mem_cons_of_mem _ hr) hqr)

/-- With the invariant, the worker being sequential means at most one
store entry is ever in `'processing'` status. -/
theorem inv_active_le_one {s : PState} (hs : Inv s) : getActiveCount s ≤ 1 := by
  unfold getActiveCount
  rcases hcur : s.current with _ | c
  · have hz : s.processing.countP (fun p => decide (p.2.status = TStatus.processing)) = 0 := by
      rw [List.countP_eq_zero]
      intro p hp hq
      rcases hs.activeCur p hp (of_decide_eq_true hq) with ⟨c, hc, _⟩
      rw [hcur] at hc
      cases hc
    rw [hz]
    omega
  · apply countP_le_one_of_key c.taskId hs.procNodup
    intro p hp hq
    rcases hs.activeCur p hp (of_decide_eq_true hq) with ⟨c', hc', hid⟩
    rw [hcur] at hc'
    injection hc' with hc'
    rw [hc']
    exact hid.symm

/-! ### The invariant holds initially and is preserved -/

theorem inv_init : Inv initState := by
  constructor <;> simp [initState, akeys]

/-- Under the invariant, an entry still in `'processing'` status has no
result yet. -/
theorem inv_processing_no_result {s : PState} (hs : Inv s) {tid : String} {e : Entry}
    (he : alookup tid s.processing = some e) (hst : e.status = TStatus.processing) :
    alookup tid s.results = none := by
  rcases hres : alookup tid s.results with _ | r
  · rfl
  · exfalso
    rcases r with v | m
    · have hc := (hs.resultIff (tid, e) (alookup_mem he)).1.mpr ⟨v, hres⟩
      rw [hst] at hc
      exact TStatus.noConfusion hc
    · have hc := (hs.resultIff (tid, e) (alookup_mem he)).2.mpr ⟨m, hres⟩
      rw [hst] at hc
      exact TStatus.noConfusion hc

theorem inv_submit {s : PState} (hs : Inv s) (c : SubmitCall)
    (freshQ : ∀ t ∈ s.taskQueue, t.taskId ≠ c.taskId)
    (freshP : alookup c.taskId s.processing = none)
    (freshR : alookup c.taskId s.results = none)
    (freshC : ∀ t, s.current = some t → t.taskId ≠ c.taskId) :
    Inv (submitTask s c).1 := by
  refine ⟨?_, ?_, ?_, ?_, hs.procNodup, hs.resNodup, hs.activeCur, hs.curActive,
    hs.resultIff⟩
  · simp only [submitTask, List.map_append, List.map_cons, List.map_nil]
    rw [List.nodup_append]
    refine ⟨hs.queueNodup, List.nodup_singleton _, ?_⟩
    intro a ha hb
    simp only [List.mem_cons, List.not_mem_nil, or_false] at hb
    rcases List.mem_map.mp ha with ⟨t, ht, rfl⟩
    exact freshQ t ht hb
  · intro t ht
    simp only [submitTask, List.mem_append, List.mem_cons, List.not_mem_nil,
      or_false] at ht
    rcases ht with ht | rfl
    · exact hs.queueProc t ht
    · exact freshP
  · intro t ht
    simp only [submitTask, List.mem_append, List.mem_cons, List.not_mem_nil,
      or_false] at ht
    rcases ht with ht | rfl
    · exact hs.queueRes t ht
    · exact freshR
  · intro t ht c' hc'
    simp only [submitTask, List.mem_append, List.mem_cons, List.not_mem_nil,
      or_false] at ht
    rcases ht with ht | rfl
    · exact hs.queueCur t ht c' hc'
    · exact freshC c' hc'

theorem inv_begin {s : PState} (hs : Inv s) (task : Task) (rest : List Task)
    (now : Time) (hq : s.taskQueue = task :: rest) (hidle : s.current = none) :
    Inv (beginTask { s with taskQueue := rest } task now) := by
  have htmem : task ∈ s.taskQueue := by rw [hq]; exact List.mem_cons_self _ _
  have htidP : alookup task.taskId s.processing = none := hs.queueProc task htmem
  have htidR : alookup task.taskId s.results = none := hs.queueRes task htmem
  have hqn : (s.taskQueue.map Task.taskId).Nodup := hs.queueNodup
  rw [hq] at hqn
  simp only [List.map_cons, List.nodup_cons] at hqn
  simp only [beginTask]
  refine ⟨hqn.2, ?_, ?_, ?_, ?_, hs.resNodup, ?_, ?_, ?_⟩
  · intro t ht
    have hne : t.taskId ≠ task.taskId := by
      intro hEq
      exact hqn.1 (hEq ▸ List.mem_map.mpr ⟨t, ht, rfl⟩)
    rw [alookup_upsert_ne _ _ hne]
    exact hs.queueProc t (by rw [hq]; exact List.mem_cons_of_mem _ ht)
  · intro t ht
    exact hs.queueRes t (by rw [hq]; exact List.mem_cons_of_mem _ ht)
  · intro t ht c hc
    injection hc with hc
    subst hc
    intro hEq
    exact hqn.1 (by rw [hEq]; exact List.mem_map.mpr ⟨t, ht, rfl⟩)
  · rw [akeys_upsert_of_none _ htidP, List.nodup_append]
    refine ⟨hs.procNodup, List.nodup_singleton _, ?_⟩
    intro a ha hb
    simp only [List.mem_cons, List.not_mem_nil, or_false] at hb
    subst hb
    exact alookup_eq_none.mp htidP ha
  · intro p hp hst
    rcases mem_upsert hp with rfl | hp'
    · exact ⟨task, rfl, rfl⟩
    · rcases hs.activeCur p hp' hst with ⟨c, hc, _⟩
      rw [hidle] at hc
      cases hc
  · intro c hc
    injection hc with hc
    subst hc
    exact ⟨_, alookup_upsert_self _ _ _, rfl⟩
  · intro p hp
    rcases mem_upsert hp with rfl | hp'
    · constructor <;> (rw [htidR]; simp)
    · exact hs.resultIff p hp'

theorem inv_finish {s : PState} (hs : Inv s) (task : Task)
    (out : Except String String) (now : Time) (hcur : s.current = some task) :
    Inv (finishTask s task.taskId out now) := by
  obtain ⟨e0, he0, he0s⟩ := hs.curActive task hcur
  have hres : alookup task.taskId s.results = none :=
    inv_processing_no_result hs he0 he0s
  cases out with
  | ok r =>
    simp only [finishTask]
    refine ⟨hs.queueNodup, ?_, ?_, ?_, ?_, ?_, ?_, ?_, ?_⟩
    · intro t ht
      have hne : t.taskId ≠ task.taskId := Ne.symm (hs.queueCur t ht task hcur)
      rw [alookup_amodify_ne _ _ hne]
      exact hs.queueProc t ht
    · intro t ht
      have hne : t.taskId ≠ task.taskId := Ne.symm (hs.queueCur t ht task hcur)
      rw [alookup_upsert_ne _ _ hne]
      exact hs.queueRes t ht
    · intro t ht c hc
      cases hc
    · rw [akeys_amodify]
      exact hs.procNodup
    · rw [akeys_upsert_of_none _ hres, List.nodup_append]
      refine ⟨hs.resNodup, List.nodup_singleton _, ?_⟩
      intro a ha hb
      simp only [List.mem_cons, List.not_mem_nil, or_false] at hb
      subst hb
      exact alookup_eq_none.mp hres ha
    · intro p hp hst
      exfalso
      rcases mem_amodify hp with ⟨hk, v, hv, hfv⟩ | ⟨hk, hp'⟩
      · rw [hfv] at hst
        exact TStatus.noConfusion hst
      · rcases hs.activeCur p hp' hst with ⟨c, hc, hcid⟩
        rw [hcur] at hc
        injection hc with hc
        subst hc
        exact hk hcid.symm
    · intro c hc
      cases hc
    · intro p hp
      rcases mem_amodify hp with ⟨hk, v, hv, hfv⟩ | ⟨hk, hp'⟩
      · constructor
        · constructor
          · intro _
            exact ⟨r, by rw [hk]; exact alookup_upsert_self _ _ _⟩
          · intro _
            rw [hfv]
        · constructor
          · intro hfail
            rw [hfv] at hfail
            exact TStatus.noConfusion hfail
          · intro hm
            obtain ⟨m, hm⟩ := hm
            rw [hk, alookup_upsert_self] at hm
            injection hm with hm
            exact TaskResult.noConfusion hm
      · rw [alookup_upsert_ne _ _ hk]
        exact hs.resultIff p hp'
  | error msg =>
    simp only [finishTask]
    refine ⟨hs.queueNodup, ?_, ?_, ?_, ?_, ?_, ?_, ?_, ?_⟩
    · intro t ht
      have hne : t.taskId ≠ task.taskId := Ne.symm (hs.queueCur t ht task hcur)
      rw [alookup_amodify_ne _ _ hne]
      exact hs.queueProc t ht
    · intro t ht
      have hne : t.taskId ≠ task.taskId := Ne.symm (hs.queueCur t ht task hcur)
      rw [alookup_upsert_ne _ _ hne]
      exact hs.queueRes t ht
    · intro t ht c hc
      cases hc
    · rw [akeys_amodify]
      exact hs.procNodup
    · rw [akeys_upsert_of_none _ hres, List.nodup_append]
      refine ⟨hs.resNodup, List.nodup_singleton _, ?_⟩
      intro a ha hb
      simp only [List.mem_cons, List.not_mem_nil, or_false] at hb
      subst hb
      exact alookup_eq_none.mp hres ha
    · intro p hp hst
      exfalso
      rcases mem_amodify hp with ⟨hk, v, hv, hfv⟩ | ⟨hk, hp'⟩
      · rw [hfv] at hst
        exact TStatus.noConfusion hst
      · rcases hs.activeCur p hp' hst with ⟨c, hc, hcid⟩
        rw [hcur] at hc
        injection hc with hc
        subst hc
        exact hk hcid.symm
    · intro c hc
      cases hc
    · intro p hp
      rcases mem_amodify hp with ⟨hk, v, hv, hfv⟩ | ⟨hk, hp'⟩
      · constructor
        · constructor
          · intro hcomp
            rw [hfv] at hcomp
            exact TStatus.noConfusion hcomp
          · intro hm
            obtain ⟨m, hm⟩ := hm
            rw [hk, alookup_upsert_self] at hm
            injection hm with hm
            exact TaskResult.noConfusion hm
        · constructor
          · intro _
            exact ⟨msg, by rw [hk]; exact alookup_upsert_self _ _ _⟩
          · intro _
            rw [hfv]
      · rw [alookup_upsert_ne _ _ hk]
        exact hs.resultIff p hp'

theorem inv_cleanup {s : PState} (hs : Inv s) (now : Time)
    (hidle : s.current = none) : Inv (cleanupCompletedTasks s now) := by
  simp only [cleanupCompletedTasks]
  refine ⟨hs.queueNodup, ?_, ?_, ?_, ?_, ?_, ?_, ?_, ?_⟩
  · intro t ht
    exact alookup_filter_none (hs.queueProc t ht)
  · intro t ht
    exact alookup_filter_none (hs.queueRes t ht)
  · intro t ht c hc
    rw [hidle] at hc
    cases hc
  · exact hs.procNodup.sublist ((List.filter_sublist _).map _)
  · exact hs.resNodup.sublist ((List.filter_sublist _).map _)
  · intro p hp hst
    exfalso
    rcases hs.activeCur p (List.mem_of_mem_filter hp) hst with ⟨c, hc, _⟩
    rw [hidle] at hc
    cases hc
  · intro c hc
    rw [hidle] at hc
    cases hc
  · intro p hp
    have hmm := List.mem_filter.mp hp
    have hpe : alookup p.1 s.processing = some p.2 :=
      mem_alookup hs.procNodup hmm.1
    have hkeep : (!(expiredCompleted now p.2)) = true := hmm.2
    have hlr : alookup p.1 (s.results.filter (fun r =>
        match alookup r.1 s.processing with
        | some e => !(expiredCompleted now e)
        | none => true)) = alookup p.1 s.results := by
      rcases hr : alookup p.1 s.results with _ | r
      · exact alookup_filter_none hr
      · apply alookup_filter_pos hr
        show (match alookup p.1 s.processing with
              | some e => !(expiredCompleted now e)
              | none => true) = true
        rw [hpe]
        exact hkeep
    rw [hlr]
    exact hs.resultIff p hmm.1

/-- Every step of the system preserves the invariant. -/
theorem inv_step {tts video : Task → Except String String} {s s' : PState}
    (hs : Inv s) (h : Step tts video s s') : Inv s' := by
  cases h with
  | submit c fQ fP fR fC => exact inv_submit hs c fQ fP fR fC
  | begin task rest now hq hidle hcap => exact inv_begin hs task rest now hq hidle
  | finish task now hcur => exact inv_finish hs task _ now hcur
  | cleanup now hidle => exact inv_cleanup hs now hidle

/-- The invariant holds in every reachable state. -/
theorem reachable_inv {tts video : Task → Except String String} {s : PState}
    (h : Reachable tts video s) : Inv s := by
  induction h with
  | init => exact inv_init
  | step _ hstep ih => exact inv_step ih hstep

/-! ### Retry loop lemmas -/

theorem range_succ_map_double (rr : Nat) (d : ℚ) :
    (List.range (rr + 1)).map (fun i => (2:ℚ) ^ i * d) =
      d :: (List.range rr).map (fun i => (2:ℚ) ^ i * (2 * d)) := by
  rw [List.range_succ_eq_map, List.map_cons, List.map_map]
  simp only [pow_zero, one_mul]
  congr 1
  apply List.map_congr_left
  intro i _
  show (2:ℚ) ^ (i + 1) * d = (2:ℚ) ^ i * (2 * d)
  ring

theorem retryGo_zero {E A : Type} (op : Nat → Except E A) (j : Nat) (δ : ℚ) :
    retryGo op j 0 δ = (none, 0, []) := rfl

theorem retryGo_ok {E A : Type} {op : Nat → Except E A} {j : Nat} {a : A}
    (r : Nat) (δ : ℚ) (h : op j = Except.ok a) :
    retryGo op j (r + 1) δ = (some (Except.ok a), 1, []) := by
  simp [retryGo, h]

theorem retryGo_last {E A : Type} {op : Nat → Except E A} {j : Nat} {e : E}
    (δ : ℚ) (h : op j = Except.error e) :
    retryGo op j 1 δ = (some (Except.error e), 1, []) := by
  simp [retryGo, h]

theorem retryGo_cons {E A : Type} {op : Nat → Except E A} {j : Nat} {e : E}
    (r : Nat) (δ : ℚ) (h : op j = Except.error e) :
    retryGo op j (r + 1 + 1) δ =
      ((retryGo op (j + 1) (r + 1) (2 * δ)).1,
       (retryGo op (j + 1) (r + 1) (2 * δ)).2.1 + 1,
       δ :: (retryGo op (j + 1) (r + 1) (2 * δ)).2.2) := by
  simp [retryGo, h]

theorem retryGo_allFail {E A : Type} (op : Nat → Except E A) (errs : Nat → E) :
    ∀ (rem j : Nat) (δ : ℚ), 0 < rem →
    (∀ k, j ≤ k → k < j + rem → op k = Except.error (errs k)) →
    retryGo op j rem δ =
      (some (Except.error (errs (j + rem - 1))), rem,
       (List.range (rem - 1)).map (fun i => (2:ℚ) ^ i * δ)) := by
  intro rem
  induction rem with
  | zero => intro j δ h; exact absurd h (lt_irrefl 0)
  | succ r ih =>
    intro j δ _ hfail
    have hj : op j = Except.error (errs j) := hfail j le_rfl (by omega)
    cases r with
    | zero =>
      rw [retryGo_last δ hj]
      simp
    | succ r' =>
      have hrec := ih (j + 1) (2 * δ) (by omega)
        (fun k hk1 hk2 => hfail k (by omega) (by omega))
      rw [retryGo_cons r' δ hj, hrec]
      have hidx : j + 1 + (r' + 1) - 1 = j + (r' + 1 + 1) - 1 := by omega
      rw [hidx]
      have hlen : r' + 1 + 1 - 1 = (r' + 1 - 1) + 1 := by omega
      rw [hlen, range_succ_map_double]

theorem retryGo_success {E A : Type} (op : Nat → Except E A) (v : A) :
    ∀ (k rem j : Nat) (δ : ℚ), k < rem →
    (∀ i, j ≤ i → i < j + k → ∃ e, op i = Except.error e) →
    op (j + k) = Except.ok v →
    (retryGo op j rem δ).1 = some (Except.ok v) ∧
    (retryGo op j rem δ).2.1 = k + 1 := by
  intro k
  induction k with
  | zero =>
    intro rem j δ hk hfail hok
    cases rem with
    | zero => exact absurd hk (by omega)
    | succ r =>
      simp only [Nat.add_zero] at hok
      rw [retryGo_ok r δ hok]
      exact ⟨rfl, rfl⟩
  | succ k' ih =>
    intro rem j δ hk hfail hok
    obtain ⟨e, he⟩ := hfail j le_rfl (by omega)
    cases rem with
    | zero => exact absurd hk (by omega)
    | succ r =>
      cases r with
      | zero => exact absurd hk (by omega)
      | succ r' =>
        have hrec := ih (r' + 1) (j + 1) (2 * δ) (by omega)
          (fun i h1 h2 => hfail i (by omega) (by omega))
          (by rw [show j + 1 + k' = j + (k' + 1) from by omega]; exact hok)
        rw [retryGo_cons r' δ he]
        exact ⟨hrec.1, by rw [hrec.2]⟩

theorem retryGo_delays_shape {E A : Type} (op : Nat → Except E A)
    (rem j : Nat) (δ : ℚ) :
    (retryGo op j rem δ).2.2 = [] ∨ ∃ t, (retryGo op j rem δ).2.2 = δ :: t := by
  cases rem with
  | zero => left; rfl
  | succ r =>
    cases hop : op j with
    | ok a => left; rw [retryGo_ok r δ hop]
    | error e =>
      cases r with
      | zero => left; rw [retryGo_last δ hop]
      | succ r' => right; exact ⟨_, by rw [retryGo_cons r' δ hop]⟩

theorem retryGo_delays_chain {E A : Type} (op : Nat → Except E A) :
    ∀ (rem j : Nat) (δ : ℚ), 0 ≤ δ →
    ((retryGo op j rem δ).2.2).Chain' (· ≤ ·) := by
  intro rem
  induction rem with
  | zero =>
    intro j δ _
    show ([] : List ℚ).Chain' (· ≤ ·)
    exact List.chain'_nil
  | succ r ih =>
    intro j δ hδ
    cases hop : op j with
    | ok a =>
      rw [retryGo_ok r δ hop]
      exact List.chain'_nil
    | error e =>
      cases r with
      | zero =>
        rw [retryGo_last δ hop]
        exact List.chain'_nil
      | succ r' =>
        have hc := ih (j + 1) (2 * δ) (by linarith)
        have hs := retryGo_delays_shape op (r' + 1) (j + 1) (2 * δ)
        rw [retryGo_cons r' δ hop]
        rcases hs with hs | ⟨t, hs⟩
        · rw [hs]
          simp
        · rw [hs]
          rw [List.chain'_cons]
          rw [hs] at hc
          exact ⟨by linarith, hc⟩

/-- Claim C1: the task ids returned by `submit_task` are not unique — two
distinct submissions (different payloads) that fall in the same
millisecond and whose freed `kwargs` dicts are allocated at the same
address receive the identical id string. -/
theorem submit_task_id_collision :
    (⟨"tts", [("text", "hello")], 1700000000000, 140234567⟩ : SubmitCall) ≠
      (⟨"tts", [("text", "world")], 1700000000000, 140234567⟩ : SubmitCall) ∧
    SubmitCall.taskId ⟨"tts", [("text", "hello")], 1700000000000, 140234567⟩ =
      SubmitCall.taskId ⟨"tts", [("text", "world")], 1700000000000, 140234567⟩ := by
  constructor
  · decide
  · rfl

/-- Claim C4: along every step of the system, a task's lifecycle phase
moves forward along `Queued → Processing → {Completed|Failed}`: the
position never decreases, a queued task can only stay queued or start
processing (never jump straight to a terminal phase), and a task in a
terminal phase stays in that phase as long as it is tracked. -/
theorem task_phase_monotone {tts video : Task → Except String String}
    {s s' : PState} (hr : Reachable tts video s) (h : Step tts video s s')
    (tid : String) (p p' : Phase)
    (hp : phaseOf s tid = some p) (hp' : phaseOf s' tid = some p') :
    phaseVal p ≤ phaseVal p' ∧
    (p = Phase.queued → p' = Phase.queued ∨ p' = Phase.processing) ∧
    (p = Phase.completed → p' = Phase.completed) ∧
    (p = Phase.failed → p' = Phase.failed) := by
  have hs : Inv s := reachable_inv hr
  cases h with
  | submit c fQ fP fR fC =>
    have heq : p' = p := by
      simp only [phaseOf, submitTask] at hp hp'
      cases hl : alookup tid s.processing with
      | some e =>
        rw [hl] at hp hp'
        rw [hp] at hp'
        injection hp' with h2
        exact h2.symm
      | none =>
        rw [hl] at hp hp'
        by_cases hm : tid ∈ s.taskQueue.map Task.taskId
        · rw [if_pos hm] at hp
          rw [if_pos (by
            rw [List.map_append]
            exact List.mem_append_left _ hm)] at hp'
          rw [hp] at hp'
          injection hp' with h2
          exact h2.symm
        · rw [if_neg hm] at hp
          cases hp
    subst heq
    exact ⟨le_refl _, fun h2 => Or.inl h2, fun h2 => h2, fun h2 => h2⟩
  | begin task rest now hq hidle hcap =>
    by_cases htid : tid = task.taskId
    · subst htid
      have hP : alookup task.taskId s.processing = none :=
        hs.queueProc task (by rw [hq]; exact List.mem_cons_self _ _)
      have hp2 : p = Phase.queued := by
        simp only [phaseOf] at hp
        rw [hP] at hp
        rw [if_pos (by
          rw [hq]
          exact List.mem_map.mpr ⟨task, List.mem_cons_self _ _, rfl⟩)] at hp
        injection hp with h2
        exact h2.symm
      have hpv : phaseOf (beginTask { s with taskQueue := rest } task now)
          task.taskId = some Phase.processing := by
        simp only [phaseOf, beginTask]
        rw [alookup_upsert_self]
      rw [hpv] at hp'
      injection hp' with hp3
      subst hp2
      rw [← hp3]
      exact ⟨by decide, fun _ => Or.inr rfl, fun h2 => Phase.noConfusion h2,
        fun h2 => Phase.noConfusion h2⟩
    · have heq : p' = p := by
        simp only [phaseOf, beginTask] at hp hp'
        rw [alookup_upsert_ne _ _ htid] at hp'
        cases hl : alookup tid s.processing with
        | some e =>
          rw [hl] at hp hp'
          rw [hp] at hp'
          injection hp' with h2
          exact h2.symm
        | none =>
          rw [hl] at hp hp'
          by_cases hm : tid ∈ rest.map Task.taskId
          · rw [if_pos hm] at hp'
            rw [if_pos (by
              rw [hq, List.map_cons]
              exact List.mem_cons_of_mem _ hm)] at hp
            rw [hp] at hp'
            injection hp' with h2
            exact h2.symm
          · rw [if_neg hm] at hp'
            cases hp'
      subst heq
      exact ⟨le_refl _, fun h2 => Or.inl h2, fun h2 => h2, fun h2 => h2⟩
  | finish task now hcur =>
    by_cases htid : tid = task.taskId
    · subst htid
      obtain ⟨e0, he0, he0s⟩ := hs.curActive task hcur
      obtain ⟨st, sa, ty, ca, er⟩ := e0
      simp only [Entry.status] at he0s
      subst he0s
      have hpv : phaseOf s task.taskId = some Phase.processing := by
        simp only [phaseOf]
        rw [he0]
      rw [hpv] at hp
      injection hp with hp2
      have hp3 : p' = Phase.completed ∨ p' = Phase.failed := by
        cases hout : dispatch tts video task with
        | ok r =>
          left
          have hpv' : phaseOf (finishTask s task.taskId
              (dispatch tts video task) now) task.taskId =
              some Phase.completed := by
            simp only [phaseOf, finishTask, hout]
            rw [alookup_amodify_self, he0]
            rfl
          rw [hpv'] at hp'
          injection hp' with h2
          exact h2.symm
        | error m =>
          right
          have hpv' : phaseOf (finishTask s task.taskId
              (dispatch tts video task) now) task.taskId =
              some Phase.failed := by
            simp only [phaseOf, finishTask, hout]
            rw [alookup_amodify_self, he0]
            rfl
          rw [hpv'] at hp'
          injection hp' with h2
          exact h2.symm
      rw [← hp2]
      rcases hp3 with rfl | rfl
      · exact ⟨by decide, fun h2 => Phase.noConfusion h2,
          fun h2 => Phase.noConfusion h2, fun h2 => Phase.noConfusion h2⟩
      · exact ⟨by decide, fun h2 => Phase.noConfusion h2,
          fun h2 => Phase.noConfusion h2, fun h2 => Phase.noConfusion h2⟩
    · have heq : p' = p := by
        cases hout : dispatch tts video task with
        | ok r =>
          simp only [phaseOf, finishTask, hout] at hp hp'
          rw [alookup_amodify_ne _ _ htid] at hp'
          rw [hp] at hp'
          injection hp' with h2
          exact h2.symm
        | error m =>
          simp only [phaseOf, finishTask, hout] at hp hp'
          rw [alookup_amodify_ne _ _ htid] at hp'
          rw [hp] at hp'
          injection hp' with h2
          exact h2.symm
      subst heq
      exact ⟨le_refl _, fun h2 => Or.inl h2, fun h2 => h2, fun h2 => h2⟩
  | cleanup now hidle =>
    cases hl : alookup tid s.processing with
    | some e =>
      have hnq : tid ∉ s.taskQueue.map Task.taskId := by
        intro hm
        rcases List.mem_map.mp hm with ⟨t, ht, hteq⟩
        rw [← hteq] at hl
        rw [hs.queueProc t ht] at hl
        cases hl
      by_cases hexp : expiredCompleted now e = true
      · exfalso
        have hrm : alookup tid ((cleanupCompletedTasks s now).processing) = none := by
          simp only [cleanupCompletedTasks]
          apply alookup_filter_neg hs.procNodup hl
          rw [hexp]
          rfl
        simp only [phaseOf, cleanupCompletedTasks] at hp'
        simp only [cleanupCompletedTasks] at hrm
        rw [hrm] at hp'
        rw [if_neg hnq] at hp'
        cases hp'
      · have hkp : alookup tid ((cleanupCompletedTasks s now).processing) = some e := by
          simp only [cleanupCompletedTasks]
          apply alookup_filter_pos hl
          rw [Bool.not_eq_true] at hexp
          rw [hexp]
          rfl
        have heq : p' = p := by
          simp only [phaseOf] at hp
          simp only [phaseOf, cleanupCompletedTasks] at hp'
          simp only [cleanupCompletedTasks] at hkp
          rw [hkp] at hp'
          rw [hl] at hp
          rw [hp] at hp'
          injection hp' with h2
          exact h2.symm
        subst heq
        exact ⟨le_refl _, fun h2 => Or.inl h2, fun h2 => h2, fun h2 => h2⟩
    | none =>
      have h2 : alookup tid ((cleanupCompletedTasks s now).processing) = none := by
        simp only [cleanupCompletedTasks]
        exact alookup_filter_none hl
      have heq : p' = p := by
        simp only [phaseOf] at hp
        simp only [phaseOf, cleanupCompletedTasks] at hp'
        simp only [cleanupCompletedTasks] at h2
        rw [h2] at hp'
        rw [hl] at hp
        rw [hp] at hp'
        injection hp' with h3
        exact h3.symm
      subst heq
      exact ⟨le_refl _, fun h2 => Or.inl h2, fun h2 => h2, fun h2 => h2⟩

/-! ### Status view computations -/

/-- `get_task_status` on an untracked id computes the sentinel. -/
theorem getTaskStatus_none {s : PState} {tid : String}
    (h : alookup tid s.processing = none) :
    getTaskStatus s tid = StatusView.notFound := by
  unfold getTaskStatus
  rw [h]

/-- The status view of a task right after `_process_task` ran on it. -/
theorem processTask_status (tts video : Task → Except String String)
    (s : PState) (task : Task) (t1 t2 : Time) :
    getTaskStatus (processTask tts video s task t1 t2) task.taskId =
      match dispatch tts video task with
      | Except.ok r =>
          StatusView.found ⟨TStatus.completed, t1, task.type, some t2, none⟩
            (some (TaskResult.success r))
      | Except.error m =>
          StatusView.found ⟨TStatus.failed, t1, task.type, none, some m⟩
            (some (TaskResult.failure m)) := by
  cases hd : dispatch tts video task with
  | ok r =>
    have hp : alookup task.taskId (processTask tts video s task t1 t2).processing =
        some ⟨TStatus.completed, t1, task.type, some t2, none⟩ := by
      simp only [processTask, hd, finishTask, beginTask]
      rw [alookup_amodify_self, alookup_upsert_self]
      rfl
    have hr : alookup task.taskId (processTask tts video s task t1 t2).results =
        some (TaskResult.success r) := by
      simp only [processTask, hd, finishTask, beginTask]
      exact alookup_upsert_self _ _ _
    have hview : getTaskStatus (processTask tts video s task t1 t2) task.taskId =
        StatusView.found ⟨TStatus.completed, t1, task.type, some t2, none⟩
          (alookup task.taskId (processTask tts video s task t1 t2).results) := by
      unfold getTaskStatus
      rw [hp]
    rw [hview, hr]
  | error m =>
    have hp : alookup task.taskId (processTask tts video s task t1 t2).processing =
        some ⟨TStatus.failed, t1, task.type, none, some m⟩ := by
      simp only [processTask, hd, finishTask, beginTask]
      rw [alookup_amodify_self, alookup_upsert_self]
      rfl
    have hr : alookup task.taskId (processTask tts video s task t1 t2).results =
        some (TaskResult.failure m) := by
      simp only [processTask, hd, finishTask, beginTask]
      exact alookup_upsert_self _ _ _
    have hview : getTaskStatus (processTask tts video s task t1 t2) task.taskId =
        StatusView.found ⟨TStatus.failed, t1, task.type, none, some m⟩
          (alookup task.taskId (processTask tts video s task t1 t2).results) := by
      unfold getTaskStatus
      rw [hp]
    rw [hview, hr]

/-! ### Reachability of the example states -/

theorem step_submitA : Step ttsOk videoOk initState sQueuedA :=
  Step.submit initState subA (fun t ht => absurd ht (List.not_mem_nil t)) rfl rfl
    (fun _ ht => Option.noConfusion ht)

theorem step_beginA : Step ttsOk videoOk sQueuedA sMid :=
  Step.begin sQueuedA ⟨"tts_1000_7", "tts", [("text", "hi")]⟩ [] 1 rfl rfl
    (by decide)

theorem reach_sQueuedA : Reachable ttsOk videoOk sQueuedA :=
  Reachable.step Reachable.init step_submitA

theorem reach_sMid : Reachable ttsOk videoOk sMid :=
  Reachable.step reach_sQueuedA step_beginA

/-! ### Claims C2, C3, C9 -/

/-- Claim C2 counterexample: right after `submit_task` on a fresh
processor — before any worker ran — `get_task_status` on the returned id
is `not_found`, not a queued status. -/
theorem submitted_task_reports_not_found :
    getTaskStatus (submitTask initState ⟨"tts", [("text", "hello")], 1000, 7⟩).1
        (submitTask initState ⟨"tts", [("text", "hello")], 1000, 7⟩).2 =
      StatusView.notFound := rfl

/-- Claim C2 (amended): `submit_task` only enqueues — it creates no Task
Store entry and no result, so a submitted task the worker has not yet
started reports the `not_found` sentinel rather than a queued status. -/
theorem submit_leaves_store_untouched (s : PState) (c : SubmitCall) :
    (submitTask s c).1.processing = s.processing ∧
    (submitTask s c).1.results = s.results ∧
    (alookup c.taskId s.processing = none →
      getTaskStatus (submitTask s c).1 c.taskId = StatusView.notFound) := by
  refine ⟨rfl, rfl, ?_⟩
  intro h
  exact getTaskStatus_none h

/-- Witness for `submit_leaves_store_untouched` at a concrete call. -/
theorem submit_leaves_store_untouched_witness :
    getTaskStatus (submitTask initState ⟨"video", [("audio_path", "a.mp3")], 2000, 9⟩).1
        (SubmitCall.taskId ⟨"video", [("audio_path", "a.mp3")], 2000, 9⟩) =
      StatusView.notFound :=
  (submit_leaves_store_untouched initState
    ⟨"video", [("audio_path", "a.mp3")], 2000, 9⟩).2.2 rfl

/-- Claim C3 counterexample: a failed task whose handler error happened at
time 2 is still fully queryable after a cleanup sweep at time 1000000 —
far beyond the 300-second retention window — because
`_cleanup_completed_tasks` only ever reaps `'completed'` entries. -/
theorem cleanup_retains_expired_failed_task :
    getTaskStatus (cleanupCompletedTasks failedTaskState 1000000) "tts_1000_7" =
      StatusView.found ⟨TStatus.failed, 1, "tts", none, some "engine down"⟩
        (some (TaskResult.failure "engine down")) ∧
    getTaskStatus (cleanupCompletedTasks failedTaskState 1000000) "tts_1000_7" ≠
      StatusView.notFound := by
  constructor
  · rfl
  · decide

/-- Claim C3 (amended): the cleanup sweep removes exactly the Completed
entries whose completion lies more than 300 seconds in the past (their id
then reports `not_found`), while Failed entries are never purged and stay
queryable with their result. -/
theorem cleanup_purges_only_completed (s : PState) (now : Time) (tid : String)
    (e : Entry) (nd : (akeys s.processing).Nodup)
    (he : alookup tid s.processing = some e) :
    (e.status = TStatus.failed →
      getTaskStatus (cleanupCompletedTasks s now) tid =
        StatusView.found e (alookup tid s.results)) ∧
    (e.status = TStatus.completed → 300 < now - e.completedAt.getD 0 →
      getTaskStatus (cleanupCompletedTasks s now) tid = StatusView.notFound) := by
  constructor
  · intro hf
    have hexp : expiredCompleted now e = false := by
      simp [expiredCompleted, hf]
    have hkp : alookup tid ((cleanupCompletedTasks s now).processing) = some e := by
      simp only [cleanupCompletedTasks]
      apply alookup_filter_pos he
      rw [hexp]
      rfl
    have hkr : alookup tid ((cleanupCompletedTasks s now).results) =
        alookup tid s.results := by
      simp only [cleanupCompletedTasks]
      rcases hr : alookup tid s.results with _ | r
      · exact alookup_filter_none hr
      · apply alookup_filter_pos hr
        show (match alookup tid s.processing with
              | some e => !(expiredCompleted now e)
              | none => true) = true
        rw [he]
        show (!(expiredCompleted now e)) = true
        rw [hexp]
        rfl
    have hview : getTaskStatus (cleanupCompletedTasks s now) tid =
        StatusView.found e (alookup tid ((cleanupCompletedTasks s now).results)) := by
      unfold getTaskStatus
      rw [hkp]
    rw [hview, hkr]
  · intro hc hold
    have hexp : expiredCompleted now e = true := by
      simp [expiredCompleted, hc, hold]
    have hrm : alookup tid ((cleanupCompletedTasks s now).processing) = none := by
      simp only [cleanupCompletedTasks]
      apply alookup_filter_neg nd he
      rw [hexp]
      rfl
    exact getTaskStatus_none hrm

/-- Witness for `cleanup_purges_only_completed` at a concrete state. -/
theorem cleanup_purges_only_completed_witness :
    getTaskStatus (cleanupCompletedTasks failedTaskState 5000) "tts_1000_7" =
      StatusView.found ⟨TStatus.failed, 1, "tts", none, some "engine down"⟩
        (some (TaskResult.failure "engine down")) := by
  have h := (cleanup_purges_only_completed failedTaskState 5000 "tts_1000_7"
      ⟨TStatus.failed, 1, "tts", none, some "engine down"⟩ (by decide) rfl).1 rfl
  exact h.trans rfl

/-- Claim C9: `get_task_status` on an id the processor does not track
(never submitted or already purged) returns the `not_found` sentinel; the
function is total on the state, so no exception is possible. -/
theorem unknown_id_status_not_found (s : PState) (tid : String)
    (h : alookup tid s.processing = none) :
    getTaskStatus s tid = StatusView.notFound :=
  getTaskStatus_none h

/-- Witness for `unknown_id_status_not_found` on a fresh processor. -/
theorem unknown_id_status_not_found_witness :
    getTaskStatus initState "no-such-task" = StatusView.notFound :=
  unknown_id_status_not_found initState "no-such-task" rfl

/-! ### Claims C4, C5, C10 -/

/-- Witness for `task_phase_monotone`: the concrete step in which the
worker pulls the queued example task and starts processing it. -/
theorem task_phase_monotone_witness :
    phaseVal Phase.queued ≤ phaseVal Phase.processing ∧
    (Phase.queued = Phase.queued →
      Phase.processing = Phase.queued ∨ Phase.processing = Phase.processing) ∧
    (Phase.queued = Phase.completed → Phase.processing = Phase.completed) ∧
    (Phase.queued = Phase.failed → Phase.processing = Phase.failed) :=
  task_phase_monotone reach_sQueuedA step_beginA "tts_1000_7"
    Phase.queued Phase.processing (by decide) (by decide)

/-- Claim C5: in every reachable state the number of store entries in
`'processing'` status is at most the configured concurrency ceiling
`max_concurrent_tasks = 2`, and every step preserves this bound. -/
theorem processing_count_within_ceiling
    {tts video : Task → Except String String} {s : PState}
    (h : Reachable tts video s) : getActiveCount s ≤ maxConcurrentTasks := by
  have h1 := inv_active_le_one (reachable_inv h)
  unfold maxConcurrentTasks
  omega

/-- Witness for `processing_count_within_ceiling` at the mid-handler
state (one active task). -/
theorem processing_count_within_ceiling_witness :
    getActiveCount sMid ≤ maxConcurrentTasks :=
  processing_count_within_ceiling reach_sMid

/-- Claim C10: the worker thread is unique and runs each handler to
completion inside `_process_task`, so in every reachable state at most
one task is in `'processing'` status — stronger than the configured
ceiling of 2. -/
theorem single_worker_at_most_one_processing
    {tts video : Task → Except String String} {s : PState}
    (h : Reachable tts video s) : getActiveCount s ≤ 1 :=
  inv_active_le_one (reachable_inv h)

/-- Witness for `single_worker_at_most_one_processing` at the mid-handler
state (exactly one active task). -/
theorem single_worker_at_most_one_processing_witness :
    getActiveCount sMid ≤ 1 :=
  single_worker_at_most_one_processing reach_sMid

/-! ### Claim C6 -/

/-- Claim C6: `retry_with_backoff` with attempt count `N ≥ 1` and initial
delay `d ≥ 0` invokes the operation exactly `N` times when every attempt
fails, then re-raises the final attempt's error unchanged, with sleep
delays `d, 2d, 4d, ...`; when the first success comes at attempt `k`
(0-indexed, `k < N`) it returns that attempt's value after `k + 1`
invocations; and the delay sequence is always non-decreasing. -/
theorem retry_with_backoff_spec {E A : Type} (op : Nat → Except E A)
    (N : Nat) (d : ℚ) (hN : 1 ≤ N) (hd : 0 ≤ d) :
    (∀ errs : Nat → E, (∀ k, k < N → op k = Except.error (errs k)) →
       retryWithBackoff op N d =
         (some (Except.error (errs (N - 1))), N,
          (List.range (N - 1)).map (fun i => (2:ℚ) ^ i * d))) ∧
    (∀ (k : Nat) (v : A), k < N →
       (∀ i, i < k → ∃ e, op i = Except.error e) → op k = Except.ok v →
       (retryWithBackoff op N d).1 = some (Except.ok v) ∧
       (retryWithBackoff op N d).2.1 = k + 1) ∧
    ((retryWithBackoff op N d).2.2).Chain' (· ≤ ·) := by
  refine ⟨?_, ?_, ?_⟩
  · intro errs hfail
    have h0 := retryGo_allFail op errs N 0 d (by omega)
      (fun k h1 h2 => hfail k (by omega))
    rw [show 0 + N - 1 = N - 1 from by omega] at h0
    exact h0
  · intro k v hk hfail hok
    exact retryGo_success op v k N 0 d hk
      (fun i h1 h2 => hfail i (by omega)) (by simpa using hok)
  · exact retryGo_delays_chain op N 0 d hd

/-- Witness for `retry_with_backoff_spec`: an operation that always fails
with `"boom"`, three attempts, initial delay 1 — three invocations, the
original error propagated, delays 1 then 2. -/
theorem retry_with_backoff_spec_witness :
    retryWithBackoff (fun _ => (Except.error "boom" : Except String Nat)) 3 1 =
      (some (Except.error "boom"), 3, [1, 2]) := by
  have h := (retry_with_backoff_spec
      (fun _ => (Except.error "boom" : Except String Nat)) 3 1
      (by norm_num) (by norm_num)).1 (fun _ => "boom") (fun k _ => rfl)
  rw [h]
  norm_num [List.range_succ]

/-! ### Claim C7 -/

/-- Claim C7: processing a task whose kind is neither `'tts'` nor
`'video'` leaves it Failed with the descriptive `Unknown task type` error
message in its result, and the worker goes on: a task of a recognized
kind processed afterwards completes normally with its handler's output. -/
theorem unknown_kind_task_fails_and_loop_continues
    (tts video : Task → Except String String) (s : PState) (bogus good : Task)
    (h1 : bogus.type ≠ "tts") (h2 : bogus.type ≠ "video")
    (t1 t2 t3 t4 : Time) (v : String)
    (hg : good.type = "tts") (hv : tts good = Except.ok v) :
    getTaskStatus (processTask tts video s bogus t1 t2) bogus.taskId =
      StatusView.found
        ⟨TStatus.failed, t1, bogus.type, none,
          some ("Unknown task type: " ++ bogus.type)⟩
        (some (TaskResult.failure ("Unknown task type: " ++ bogus.type))) ∧
    getTaskStatus
        (processTask tts video (processTask tts video s bogus t1 t2) good t3 t4)
        good.taskId =
      StatusView.found ⟨TStatus.completed, t3, good.type, some t4, none⟩
        (some (TaskResult.success v)) := by
  have hd1 : dispatch tts video bogus =
      Except.error ("Unknown task type: " ++ bogus.type) := by
    unfold dispatch
    rw [if_neg h1, if_neg h2]
  have hd2 : dispatch tts video good = Except.ok v := by
    unfold dispatch
    rw [if_pos hg]
    exact hv
  constructor
  · rw [processTask_status, hd1]
  · rw [processTask_status, hd2]

/-- Witness for `unknown_kind_task_fails_and_loop_continues` on concrete
tasks of kinds `"bogus"` and `"tts"`. -/
theorem unknown_kind_task_fails_and_loop_continues_witness :
    getTaskStatus (processTask ttsOk videoOk initState
        ⟨"bogus_1_1", "bogus", []⟩ 1 2) "bogus_1_1" =
      StatusView.found
        ⟨TStatus.failed, 1, "bogus", none, some "Unknown task type: bogus"⟩
        (some (TaskResult.failure "Unknown task type: bogus")) ∧
    getTaskStatus (processTask ttsOk videoOk
        (processTask ttsOk videoOk initState ⟨"bogus_1_1", "bogus", []⟩ 1 2)
        ⟨"tts_2_2", "tts", []⟩ 3 4) "tts_2_2" =
      StatusView.found ⟨TStatus.completed, 3, "tts", some 4, none⟩
        (some (TaskResult.success "audio.mp3")) :=
  unknown_kind_task_fails_and_loop_continues ttsOk videoOk initState
    ⟨"bogus_1_1", "bogus", []⟩ ⟨"tts_2_2", "tts", []⟩ (by decide) (by decide)
    1 2 3 4 "audio.mp3" rfl rfl

/-! ### Claim C8 -/

/-- Claim C8: in every reachable state, a tracked task's result is present
exactly when the task is terminal, and the stored result matches the
state: Completed tasks hold a success value, Failed tasks an error
message, and a task still in `'processing'` has no result entry. -/
theorem result_present_iff_terminal
    {tts video : Task → Except String String} {s : PState}
    (h : Reachable tts video s) (tid : String) (e : Entry)
    (he : alookup tid s.processing = some e) :
    (e.status = TStatus.completed ↔
      ∃ v, alookup tid s.results = some (TaskResult.success v)) ∧
    (e.status = TStatus.failed ↔
      ∃ msg, alookup tid s.results = some (TaskResult.failure msg)) ∧
    (e.status = TStatus.processing → alookup tid s.results = none) := by
  have hs := reachable_inv h
  have h1 := hs.resultIff (tid, e) (alookup_mem he)
  exact ⟨h1.1, h1.2, fun hp => inv_processing_no_result hs he hp⟩

/-- Witness for `result_present_iff_terminal`: in the mid-handler state
the example task is `'processing'` and indeed has no result entry. -/
theorem result_present_iff_terminal_witness :
    alookup "tts_1000_7" sMid.results = none :=
  (result_present_iff_terminal reach_sMid "tts_1000_7"
    ⟨TStatus.processing, 1, "tts", none, none⟩ rfl).2.2 rfl

end AsyncProc
